import Mathlib

/-!
A shallow embedding of `src/app.py`, a streaming range-bar + CVD (cumulative
volume delta) aggregator, together with proofs of its specification's claims.

Modelling conventions: decimal price/amount values (Python floats holding
exchange decimals) are modelled exactly as rationals; trade ids are naturals
ordered the way the code compares them; the aggregation slice of
`st.session_state` (`bars`, `current_bar`, `last_trade_id`) is the record
`AggState`; the `deque(maxlen=...)` is a list plus its capacity, dropping from
the left on append when full; `datetime.fromtimestamp(timestamp/1000)` is
modelled by the epoch-second rational `timestamp / 1000`, an injective image of
the wall-clock instant.  The in-place dict mutation of `process_tick` is
written as explicit state passing.
-/

namespace App

/-- Trade side: the two-valued `side` field of a fetched trade. -/
inductive Side where
  | buy
  | sell
deriving DecidableEq, Repr

/-- A trade as consumed by `process_tick` and `fetch_data` in `app.py`:
`id`, `price`, `amount`, `side`, `timestamp` (milliseconds since epoch). -/
structure Trade where
  id : Nat
  price : ℚ
  amount : ℚ
  side : Side
  timestamp : Int
deriving DecidableEq, Repr

/-- A bar dict as built by `init_new_bar` (app.py lines 91-97) and mutated by
`process_tick`. -/
structure Bar where
  time : ℚ
  «open» : ℚ
  high : ℚ
  low : ℚ
  close : ℚ
  volume : ℚ
  cvd_delta : ℚ
  cvd_cum : ℚ
deriving DecidableEq, Repr

/-- The aggregation slice of `st.session_state`: `bars` is the `deque` content
(newest last) with its `maxlen`, plus `current_bar` and `last_trade_id`. -/
structure AggState where
  bars : List Bar
  bars_maxlen : Nat
  current_bar : Option Bar
  last_trade_id : Option Nat
deriving DecidableEq, Repr

/-- `deque(maxlen=cap).append b`: the new element goes to the right and, when
the deque is full, the oldest element is dropped from the left. -/
def dequeAppend (cap : Nat) (l : List Bar) (b : Bar) : List Bar :=
  (l ++ [b]).drop (l.length + 1 - cap)

/-- The `prev_cum` read by `init_new_bar` (lines 85-89): the last finalized
bar's `cvd_cum`, or 0 when the history is empty. -/
def prevCum (bars : List Bar) : ℚ :=
  match bars.getLast? with
  | some b => b.cvd_cum
  | none => 0

/-- The fresh bar dict of lines 91-97. -/
def newBar (price : ℚ) (timestamp : Int) (prev_cum : ℚ) : Bar :=
  { time := (timestamp : ℚ) / 1000,
    «open» := price, high := price, low := price, close := price,
    volume := 0, cvd_delta := 0, cvd_cum := prev_cum }

/-- `init_new_bar` (lines 84-97). -/
def init_new_bar (s : AggState) (price : ℚ) (timestamp : Int) : AggState :=
  { s with current_bar := some (newBar price timestamp (prevCum s.bars)) }

/-- The signed per-trade delta of line 70: `+amount` on a buy, `-amount`
otherwise. -/
def signedDelta (t : Trade) : ℚ :=
  if t.side = Side.buy then t.amount else -t.amount

/-- The bar `process_tick` operates on: the current bar or, when
`current_bar is None`, the bar `init_new_bar` has just seeded from this
trade (lines 57-61). -/
def barFor (s : AggState) (t : Trade) : Bar :=
  match s.current_bar with
  | some b => b
  | none => newBar t.price t.timestamp (prevCum s.bars)

/-- The OHLC/volume/delta update of lines 63-71. -/
def updBar (b : Bar) (t : Trade) : Bar :=
  { b with
    high := max b.high t.price,
    low := min b.low t.price,
    close := t.price,
    volume := b.volume + t.amount,
    cvd_delta := b.cvd_delta + signedDelta t }

/-- The cumulative-CVD finalization of line 76: `cvd_cum += cvd_delta`. -/
def finBar (b : Bar) : Bar :=
  { b with cvd_cum := b.cvd_cum + b.cvd_delta }

/-- `process_tick` (lines 51-82): seed a bar when absent, apply the
OHLC/volume/delta update, then — when `high - low >= range_height_val` —
finalize the cumulative CVD, append the bar to history, and seed a new bar
from this same trade. -/
def process_tick (s : AggState) (t : Trade) (range_height_val : ℚ) : AggState :=
  let b := updBar (barFor s t) t
  if range_height_val ≤ b.high - b.low then
    init_new_bar { s with bars := dequeAppend s.bars_maxlen s.bars (finBar b) }
      t.price t.timestamp
  else
    { s with current_bar := some b }

/-- Observer: the bar this `process_tick` call appends to history, when the
close condition of line 74 fires; `none` otherwise. -/
def closedOn (s : AggState) (t : Trade) (range_height_val : ℚ) : Option Bar :=
  let b := updBar (barFor s t) t
  if range_height_val ≤ b.high - b.low then some (finBar b) else none

/-- The post-update price range the close check of line 74 compares with the
threshold. -/
def newRange (s : AggState) (t : Trade) : ℚ :=
  (updBar (barFor s t) t).high - (updBar (barFor s t) t).low

/-- Process a list of trades in order (the `for trade in new_trades` loop). -/
def runTrades (s : AggState) (θ : ℚ) : List Trade → AggState
  | [] => s
  | t :: ts => runTrades (process_tick s t θ) θ ts

/-- All bars finalized while processing the list, oldest first — the ghost
history, unaffected by deque eviction. -/
def allClosed (s : AggState) (θ : ℚ) : List Trade → List Bar
  | [] => []
  | t :: ts => (closedOn s t θ).toList ++ allClosed (process_tick s t θ) θ ts

/-- The trades attributed to each finalized bar, in close order: a segment
ends with (and includes) the trade that closed its bar; `cur` holds the trades
already attributed to the open bar. -/
def segsAux (s : AggState) (θ : ℚ) (cur : List Trade) : List Trade → List (List Trade)
  | [] => []
  | t :: ts =>
    match closedOn s t θ with
    | some _ => (cur ++ [t]) :: segsAux (process_tick s t θ) θ [] ts
    | none => segsAux (process_tick s t θ) θ (cur ++ [t]) ts

/-- Per-finalized-bar trade attribution for a run from a state whose open bar
has consumed no trades yet. -/
def tradeSegs (s : AggState) (θ : ℚ) (ts : List Trade) : List (List Trade) :=
  segsAux s θ [] ts

/-- The initial session state of lines 41-46: an empty 200-deque, no current
bar, no dedup cursor. -/
def emptyState : AggState :=
  { bars := [], bars_maxlen := 200, current_bar := none, last_trade_id := none }

/-- The sidebar reset button of lines 32-35: a fresh empty 100-deque and no
current bar; `last_trade_id` is not touched. -/
def resetChart (s : AggState) : AggState :=
  { s with bars := [], bars_maxlen := 100, current_bar := none }

/-- The dedup step of `fetch_data` (lines 110-113).  The guard
`if st.session_state.last_trade_id:` is Python truthiness: both `None` and a
zero id take the else branch and return the batch unchanged. -/
def dedupe (trades : List Trade) (lastId : Option Nat) : List Trade :=
  match lastId with
  | some n => if n ≠ 0 then trades.filter (fun t => decide (n < t.id)) else trades
  | none => trades

/-- One fetch cycle's dedup and cursor update (lines 110-116): the new trades
and the updated `last_trade_id` (set to the last new trade's id when there is
one, otherwise left unchanged). -/
def fetchStep (lastId : Option Nat) (batch : List Trade) : List Trade × Option Nat :=
  let nt := dedupe batch lastId
  (nt,
    match nt.getLast? with
    | some t => some t.id
    | none => lastId)

/-- Iterated fetch cycles: the final `last_trade_id` and all trades consumed
(handed to `process_tick`), in order. -/
def runFetch (lastId : Option Nat) : List (List Trade) → Option Nat × List Trade
  | [] => (lastId, [])
  | b :: bs =>
    let p := fetchStep lastId b
    let q := runFetch p.2 bs
    (q.1, p.1 ++ q.2)

/-- What the render step hands the consumer each cycle (lines 141-142 and
175-177): nothing unless at least one finalized bar exists; otherwise the
finalized history only, the last finalized bar's close, the last finalized
bar's `cvd_cum`, and the finalized-bar count. -/
def renderData (s : AggState) : Option (List Bar × ℚ × ℚ × Nat) :=
  match s.bars.getLast? with
  | some b => some (s.bars, b.close, b.cvd_cum, s.bars.length)
  | none => none

/-- Signed volume of a trade list: the sum `+amount` over buys minus `amount`
over sells. -/
def sumDelta (l : List Trade) : ℚ :=
  (l.map signedDelta).sum

/-- The CVD conservation chain: each bar's `cvd_cum` is the previous
cumulative value (`c` before the head) plus its own `cvd_delta`. -/
def cvdChain (c : ℚ) : List Bar → Prop
  | [] => True
  | b :: bs => b.cvd_cum = c + b.cvd_delta ∧ cvdChain b.cvd_cum bs

/-- Each finalized bar's `cvd_delta` is the signed volume of exactly its
attributed trade segment (and the two lists have equal length). -/
def deltasMatch : List Bar → List (List Trade) → Prop
  | [], [] => True
  | b :: bs, seg :: segs => b.cvd_delta = sumDelta seg ∧ deltasMatch bs segs
  | _, _ => False

/-- Strictly ascending trade ids (the order the exchange returns batches in). -/
def ascIds (l : List Trade) : Prop :=
  l.Pairwise (fun a b => a.id < b.id)

/-- Order on the dedup cursor: an absent cursor precedes everything. -/
def optLe : Option Nat → Option Nat → Prop
  | none, _ => True
  | some _, none => False
  | some m, some m' => m ≤ m'

/-- `lid` is the maximum id among `consumed` (and absent exactly when nothing
was consumed). -/
def isMaxOf (lid : Option Nat) (consumed : List Trade) : Prop :=
  match lid with
  | none => consumed = []
  | some m => (∀ t ∈ consumed, t.id ≤ m) ∧ m ∈ consumed.map Trade.id

/-! ### Basic facts about a single `process_tick` call -/

theorem process_tick_closed_eq {s : AggState} {t : Trade} {θ : ℚ} {c : Bar}
    (h : closedOn s t θ = some c) :
    process_tick s t θ =
      init_new_bar { s with bars := dequeAppend s.bars_maxlen s.bars c }
        t.price t.timestamp := by
  simp only [closedOn] at h
  simp only [process_tick]
  split at h
  · next hc =>
      injection h with h
      rw [if_pos hc, h]
  · exact absurd h (by simp)

theorem process_tick_open_eq {s : AggState} {t : Trade} {θ : ℚ}
    (h : closedOn s t θ = none) :
    process_tick s t θ = { s with current_bar := some (updBar (barFor s t) t) } := by
  simp only [closedOn] at h
  simp only [process_tick]
  split at h
  · exact absurd h (by simp)
  · next hc => rw [if_neg hc]

theorem closedOn_isSome_iff (s : AggState) (t : Trade) (θ : ℚ) :
    (closedOn s t θ).isSome = true ↔ θ ≤ newRange s t := by
  simp only [closedOn, newRange]
  split <;> simp_all

theorem process_tick_maxlen (s : AggState) (t : Trade) (θ : ℚ) :
    (process_tick s t θ).bars_maxlen = s.bars_maxlen := by
  simp only [process_tick, init_new_bar]
  split <;> rfl

theorem process_tick_last_id (s : AggState) (t : Trade) (θ : ℚ) :
    (process_tick s t θ).last_trade_id = s.last_trade_id := by
  simp only [process_tick, init_new_bar]
  split <;> rfl

theorem init_new_bar_bars (s : AggState) (p : ℚ) (tm : Int) :
    (init_new_bar s p tm).bars = s.bars := rfl

/-! ### The bounded deque -/

theorem dequeAppend_getLast? {cap : Nat} (hcap : 0 < cap) (l : List Bar) (b : Bar) :
    (dequeAppend cap l b).getLast? = some b := by
  unfold dequeAppend
  rw [List.drop_append_of_le_length (by omega), List.getLast?_concat]

theorem prevCum_dequeAppend {cap : Nat} (hcap : 0 < cap) (l : List Bar) (b : Bar) :
    prevCum (dequeAppend cap l b) = b.cvd_cum := by
  simp [prevCum, dequeAppend_getLast? hcap]

theorem dequeAppend_drop (cap : Nat) (pre : List Bar) (b : Bar) :
    dequeAppend cap (pre.drop (pre.length - cap)) b =
      (pre ++ [b]).drop (pre.length + 1 - cap) := by
  unfold dequeAppend
  rw [← List.drop_append_of_le_length (by omega : pre.length - cap ≤ pre.length),
    List.drop_drop]
  simp only [List.length_drop]
  congr 1
  omega

/-! ### Runs -/

theorem runTrades_append (s : AggState) (θ : ℚ) (ts1 ts2 : List Trade) :
    runTrades s θ (ts1 ++ ts2) = runTrades (runTrades s θ ts1) θ ts2 := by
  induction ts1 generalizing s with
  | nil => rfl
  | cons t ts ih => exact ih (process_tick s t θ)

theorem allClosed_append (s : AggState) (θ : ℚ) (ts1 ts2 : List Trade) :
    allClosed s θ (ts1 ++ ts2) =
      allClosed s θ ts1 ++ allClosed (runTrades s θ ts1) θ ts2 := by
  induction ts1 generalizing s with
  | nil => rfl
  | cons t ts ih =>
    show (closedOn s t θ).toList ++ allClosed (process_tick s t θ) θ (ts ++ ts2) =
      ((closedOn s t θ).toList ++ allClosed (process_tick s t θ) θ ts) ++
        allClosed (runTrades (process_tick s t θ) θ ts) θ ts2
    rw [ih, List.append_assoc]

theorem runTrades_maxlen (s : AggState) (θ : ℚ) (ts : List Trade) :
    (runTrades s θ ts).bars_maxlen = s.bars_maxlen := by
  induction ts generalizing s with
  | nil => rfl
  | cons t ts ih => rw [runTrades, ih, process_tick_maxlen]

/-! ### The open bar stays strictly below the threshold -/

theorem range_lt_step {θ : ℚ} (hθ : 0 < θ) (s : AggState) (t : Trade) :
    ∀ b, (process_tick s t θ).current_bar = some b → b.high - b.low < θ := by
  intro b hb
  simp only [process_tick] at hb
  split at hb
  · simp only [init_new_bar, Option.some.injEq] at hb
    rw [← hb]
    simpa [newBar] using hθ
  · next hc =>
    simp only [Option.some.injEq] at hb
    rw [← hb]
    exact not_le.mp hc

theorem range_lt_run {θ : ℚ} (hθ : 0 < θ) (ts : List Trade) :
    ∀ s, (∀ b, s.current_bar = some b → b.high - b.low < θ) →
      ∀ b, (runTrades s θ ts).current_bar = some b → b.high - b.low < θ := by
  induction ts with
  | nil => intro s h; exact h
  | cons t ts ih => intro s _; exact ih _ (range_lt_step hθ s t)

/-! ### CVD bookkeeping invariant -/

/-- Run invariant for the CVD claims: positive deque capacity, `c` is the last
finalized cumulative value (0 with no history), the open bar carries `c` in
`cvd_cum` and the signed volume of its attributed trades `cur` in `cvd_delta`,
and an absent bar has consumed no trades. -/
def Inv2 (s : AggState) (c : ℚ) (cur : List Trade) : Prop :=
  0 < s.bars_maxlen ∧
  prevCum s.bars = c ∧
  (∀ b, s.current_bar = some b → b.cvd_cum = c ∧ b.cvd_delta = sumDelta cur) ∧
  (s.current_bar = none → cur = [])

theorem sumDelta_concat (l : List Trade) (t : Trade) :
    sumDelta (l ++ [t]) = sumDelta l + signedDelta t := by
  simp [sumDelta]

theorem barFor_cvd {s : AggState} {c : ℚ} {cur : List Trade}
    (h : Inv2 s c cur) (t : Trade) :
    (barFor s t).cvd_cum = c ∧ (barFor s t).cvd_delta = sumDelta cur := by
  obtain ⟨hcap, hprev, hsome, hnone⟩ := h
  cases hb : s.current_bar with
  | some b => simpa [barFor, hb] using hsome b hb
  | none =>
    have hc : cur = [] := hnone hb
    simp [barFor, hb, newBar, hprev, hc, sumDelta]

theorem inv2_open_step {s : AggState} {c : ℚ} {cur : List Trade} {θ : ℚ} {t : Trade}
    (h : Inv2 s c cur) (hc : closedOn s t θ = none) :
    Inv2 (process_tick s t θ) c (cur ++ [t]) := by
  have hbf := barFor_cvd h t
  obtain ⟨hcap, hprev, hsome, hnone⟩ := h
  rw [process_tick_open_eq hc]
  refine ⟨hcap, hprev, ?_, by simp⟩
  intro b hb
  simp only [Option.some.injEq] at hb
  rw [← hb]
  exact ⟨by simp [updBar, hbf.1], by simp [updBar, hbf.2, sumDelta_concat]⟩

theorem inv2_closed_step {s : AggState} {c : ℚ} {cur : List Trade} {θ : ℚ}
    {t : Trade} {fb : Bar} (h : Inv2 s c cur) (hc : closedOn s t θ = some fb) :
    fb.cvd_cum = c + fb.cvd_delta ∧ fb.cvd_delta = sumDelta (cur ++ [t]) ∧
      Inv2 (process_tick s t θ) fb.cvd_cum [] := by
  have hbf := barFor_cvd h t
  obtain ⟨hcap, hprev, hsome, hnone⟩ := h
  have hfb : fb = finBar (updBar (barFor s t) t) := by
    simp only [closedOn] at hc
    split at hc
    · injection hc with hc
      exact hc.symm
    · exact absurd hc (by simp)
  refine ⟨?_, ?_, ?_⟩
  · rw [hfb]
    simp [finBar, updBar, hbf.1]
  · rw [hfb]
    simp [finBar, updBar, hbf.2, sumDelta_concat]
  · rw [process_tick_closed_eq hc]
    refine ⟨hcap, ?_, ?_, ?_⟩
    · exact prevCum_dequeAppend hcap _ _
    · intro b hb
      simp only [init_new_bar, Option.some.injEq] at hb
      rw [← hb]
      exact ⟨by simp [newBar, init_new_bar_bars, prevCum_dequeAppend hcap],
        by simp [newBar, sumDelta]⟩
    · intro hb
      simp [init_new_bar] at hb

theorem cvd_run {θ : ℚ} : ∀ (ts : List Trade) (s : AggState) (c : ℚ) (cur : List Trade),
    Inv2 s c cur →
    cvdChain c (allClosed s θ ts) ∧
      deltasMatch (allClosed s θ ts) (segsAux s θ cur ts) := by
  intro ts
  induction ts with
  | nil => exact fun s c cur _ => ⟨trivial, trivial⟩
  | cons t ts ih =>
    intro s c cur h
    cases hc : closedOn s t θ with
    | none =>
      have h' := ih _ _ _ (inv2_open_step h hc)
      simpa [allClosed, segsAux, hc] using h'
    | some fb =>
      obtain ⟨h1, h2, h3⟩ := inv2_closed_step h hc
      have h' := ih _ _ _ h3
      simp only [allClosed, segsAux, hc, Option.toList_some, List.singleton_append,
        cvdChain, deltasMatch]
      exact ⟨⟨h1, h'.1⟩, h2, h'.2⟩

theorem inv2_empty : Inv2 emptyState 0 [] := by
  refine ⟨by norm_num [emptyState], by simp [emptyState, prevCum], ?_, fun _ => rfl⟩
  intro b hb
  simp [emptyState] at hb

/-! ### Running price extrema of the open bar -/

/-- Running maximum of a seed price and a trade list's prices. -/
def runningHigh (p : ℚ) (l : List Trade) : ℚ :=
  (l.map Trade.price).foldl max p

/-- Running minimum of a seed price and a trade list's prices. -/
def runningLow (p : ℚ) (l : List Trade) : ℚ :=
  (l.map Trade.price).foldl min p

/-- The trades attributed so far to the bar left open after the run (`cur`
holds those already attributed when the run starts). -/
def openTrades (s : AggState) (θ : ℚ) (cur : List Trade) : List Trade → List Trade
  | [] => cur
  | t :: ts =>
    match closedOn s t θ with
    | some _ => openTrades (process_tick s t θ) θ [] ts
    | none => openTrades (process_tick s t θ) θ (cur ++ [t]) ts

/-- Run invariant for the OHLC claims: the open bar's `high`/`low` are the
running max/min of its opening price and its attributed trades' prices. -/
def InvHL (s : AggState) (cur : List Trade) : Prop :=
  (∀ b, s.current_bar = some b →
    b.high = runningHigh b.«open» cur ∧ b.low = runningLow b.«open» cur) ∧
  (s.current_bar = none → cur = [])

theorem runningHigh_concat (p : ℚ) (l : List Trade) (t : Trade) :
    runningHigh p (l ++ [t]) = max (runningHigh p l) t.price := by
  simp [runningHigh]

theorem runningLow_concat (p : ℚ) (l : List Trade) (t : Trade) :
    runningLow p (l ++ [t]) = min (runningLow p l) t.price := by
  simp [runningLow]

theorem barFor_hl {s : AggState} {cur : List Trade} (h : InvHL s cur) (t : Trade) :
    (barFor s t).high = runningHigh (barFor s t).«open» cur ∧
    (barFor s t).low = runningLow (barFor s t).«open» cur := by
  obtain ⟨hsome, hnone⟩ := h
  cases hb : s.current_bar with
  | some b => simpa [barFor, hb] using hsome b hb
  | none =>
    have hc : cur = [] := hnone hb
    simp [barFor, hb, newBar, hc, runningHigh, runningLow]

theorem invHL_open_step {s : AggState} {cur : List Trade} {θ : ℚ} {t : Trade}
    (h : InvHL s cur) (hc : closedOn s t θ = none) :
    InvHL (process_tick s t θ) (cur ++ [t]) := by
  have hbf := barFor_hl h t
  rw [process_tick_open_eq hc]
  refine ⟨?_, by simp⟩
  intro b hb
  simp only [Option.some.injEq] at hb
  rw [← hb]
  constructor
  · simp [updBar, hbf.1, runningHigh_concat]
  · simp [updBar, hbf.2, runningLow_concat]

theorem invHL_closed_step {s : AggState} {θ : ℚ} {t : Trade} {fb : Bar}
    (hc : closedOn s t θ = some fb) :
    InvHL (process_tick s t θ) [] := by
  rw [process_tick_closed_eq hc]
  refine ⟨?_, fun _ => rfl⟩
  intro b hb
  simp only [init_new_bar, Option.some.injEq] at hb
  rw [← hb]
  simp [newBar, runningHigh, runningLow]

theorem invHL_run {θ : ℚ} : ∀ (ts : List Trade) (s : AggState) (cur : List Trade),
    InvHL s cur → InvHL (runTrades s θ ts) (openTrades s θ cur ts) := by
  intro ts
  induction ts with
  | nil => exact fun s cur h => h
  | cons t ts ih =>
    intro s cur h
    cases hc : closedOn s t θ with
    | none =>
      have h' := ih _ _ (invHL_open_step h hc)
      simpa [runTrades, openTrades, hc] using h'
    | some fb =>
      have h' := ih _ _ (invHL_closed_step (s := s) hc)
      simpa [runTrades, openTrades, hc] using h'

theorem invHL_empty : InvHL emptyState [] := by
  refine ⟨?_, fun _ => rfl⟩
  intro b hb
  simp [emptyState] at hb

/-! ### Concrete trades used by witnesses and counterexamples -/

/-- A buy trade used as concrete witness input. -/
def trW1 : Trade :=
  { id := 1, price := 5, amount := 2, side := Side.buy, timestamp := 1000 }

/-- A sell trade close to `trW1`'s price (range below a threshold of 1). -/
def trW2 : Trade :=
  { id := 2, price := 11 / 2, amount := 1, side := Side.sell, timestamp := 2000 }

/-- Trade 1 of the spec's worked example: price 100.00, amount 2, buy. -/
def tEx1 : Trade := { id := 1, price := 100, amount := 2, side := Side.buy, timestamp := 0 }

/-- Trade 2 of the spec's worked example: price 100.10, amount 1, sell. -/
def tEx2 : Trade :=
  { id := 2, price := 1001 / 10, amount := 1, side := Side.sell, timestamp := 1000 }

/-- Trade 3 of the spec's worked example: price 100.16, amount 3, buy. -/
def tEx3 : Trade :=
  { id := 3, price := 2504 / 25, amount := 3, side := Side.buy, timestamp := 2000 }

theorem side_sell_ne_buy : (Side.sell = Side.buy) = False :=
  eq_false (by decide)

/-- The spec's worked example, evaluated on the embedding: with threshold
0.15, the three example trades close exactly one bar on trade 3 with
`cvd_delta = 4` and `cvd_cum = 4`, and the new open bar is seeded at price
100.16 carrying `cvd_cum = 4`. -/
theorem spec_example_scenario :
    allClosed emptyState (3 / 20) [tEx1, tEx2, tEx3] =
      [{ time := 0, «open» := 100, high := 2504 / 25, low := 100, close := 2504 / 25,
         volume := 6, cvd_delta := 4, cvd_cum := 4 }] ∧
    (runTrades emptyState (3 / 20) [tEx1, tEx2, tEx3]).current_bar =
      some (newBar (2504 / 25) 2000 4) ∧
    (runTrades emptyState (3 / 20) [tEx1, tEx2, tEx3]).bars.length = 1 := by
  norm_num [allClosed, runTrades, process_tick, closedOn, barFor, emptyState, updBar,
    newBar, prevCum, signedDelta, finBar, init_new_bar, dequeAppend, tEx1, tEx2, tEx3,
    max_def, min_def, side_sell_ne_buy]

/-! ### Claim theorems (C1, C2, C10) -/

/-- Claim C1: processing trades from the empty aggregator with a positive
threshold, a `process_tick` call closes the open bar exactly when the
post-update `high - low` reaches or exceeds the threshold (the check runs
after the OHLC/volume/delta update): when it fires the finalized bar is
appended to the history and when it does not the history is unchanged;
before every trade the open bar's range is strictly below the threshold — so
a bar closes on the first qualifying trade, never one trade earlier or
later — and the open bar's `high`/`low` are exactly the running max/min of
its opening price and its attributed trades' prices. -/
theorem claim_C1 (θ : ℚ) (hθ : 0 < θ) (ts : List Trade) (t : Trade) :
    ((closedOn (runTrades emptyState θ ts) t θ).isSome = true ↔
      θ ≤ newRange (runTrades emptyState θ ts) t) ∧
    (∀ c, closedOn (runTrades emptyState θ ts) t θ = some c →
      (process_tick (runTrades emptyState θ ts) t θ).bars =
        dequeAppend (runTrades emptyState θ ts).bars_maxlen
          (runTrades emptyState θ ts).bars c) ∧
    (closedOn (runTrades emptyState θ ts) t θ = none →
      (process_tick (runTrades emptyState θ ts) t θ).bars =
        (runTrades emptyState θ ts).bars) ∧
    (∀ b, (runTrades emptyState θ ts).current_bar = some b → b.high - b.low < θ) ∧
    (∀ b, (runTrades emptyState θ ts).current_bar = some b →
      b.high = runningHigh b.«open» (openTrades emptyState θ [] ts) ∧
      b.low = runningLow b.«open» (openTrades emptyState θ [] ts)) := by
  refine ⟨closedOn_isSome_iff _ _ _, ?_, ?_, ?_, ?_⟩
  · intro c hc
    rw [process_tick_closed_eq hc]
    rfl
  · intro hc
    rw [process_tick_open_eq hc]
  · refine range_lt_run hθ ts emptyState ?_
    intro b hb
    simp [emptyState] at hb
  · exact (invHL_run ts emptyState [] invHL_empty).1

/-- Witness for C1 at a concrete input: threshold 1, empty prefix, one
trade. -/
theorem claim_C1_witness :
    0 < (1 : ℚ) ∧
    (((closedOn (runTrades emptyState 1 []) trW1 1).isSome = true ↔
        1 ≤ newRange (runTrades emptyState 1 []) trW1) ∧
      (∀ c, closedOn (runTrades emptyState 1 []) trW1 1 = some c →
        (process_tick (runTrades emptyState 1 []) trW1 1).bars =
          dequeAppend (runTrades emptyState 1 []).bars_maxlen
            (runTrades emptyState 1 []).bars c) ∧
      (closedOn (runTrades emptyState 1 []) trW1 1 = none →
        (process_tick (runTrades emptyState 1 []) trW1 1).bars =
          (runTrades emptyState 1 []).bars) ∧
      (∀ b, (runTrades emptyState 1 []).current_bar = some b → b.high - b.low < 1) ∧
      (∀ b, (runTrades emptyState 1 []).current_bar = some b →
        b.high = runningHigh b.«open» (openTrades emptyState 1 [] []) ∧
        b.low = runningLow b.«open» (openTrades emptyState 1 [] []))) :=
  ⟨by norm_num, claim_C1 1 (by norm_num) [] trW1⟩

/-- Claim C2: from the empty aggregator, every finalized bar's `cvd_cum` is
the previous finalized `cvd_cum` (0 before the first) plus its own
`cvd_delta`; each finalized bar's `cvd_delta` is the signed volume (buys
positive, sells negative) of exactly the trades attributed to it; and
finalized bars never change as further trades are processed. -/
theorem claim_C2 (θ : ℚ) (ts : List Trade) :
    cvdChain 0 (allClosed emptyState θ ts) ∧
    deltasMatch (allClosed emptyState θ ts) (tradeSegs emptyState θ ts) ∧
    (∀ ts2, ∃ rest,
      allClosed emptyState θ (ts ++ ts2) = allClosed emptyState θ ts ++ rest) := by
  have h := @cvd_run θ ts emptyState 0 [] inv2_empty
  exact ⟨h.1, h.2, fun ts2 => ⟨_, allClosed_append _ _ _ _⟩⟩

/-- Claim C10: with a positive threshold, after every completed
`process_tick` call from the empty aggregator the open bar satisfies
`high - low < threshold`; a freshly seeded bar has zero range, and a single
trade closes at most one bar. -/
theorem claim_C10 (θ : ℚ) (hθ : 0 < θ) (ts : List Trade) :
    (∀ b, (runTrades emptyState θ ts).current_bar = some b → b.high - b.low < θ) ∧
    (∀ p tm c, (newBar p tm c).high - (newBar p tm c).low = 0) ∧
    (∀ s t, (closedOn s t θ).toList.length ≤ 1) := by
  refine ⟨range_lt_run hθ ts emptyState ?_, ?_, ?_⟩
  · intro b hb
    simp [emptyState] at hb
  · intro p tm c
    simp [newBar]
  · intro s t
    cases h : closedOn s t θ <;> simp

/-- Witness for C10 at a concrete input: threshold 1 and a two-trade run. -/
theorem claim_C10_witness :
    0 < (1 : ℚ) ∧
    ((∀ b, (runTrades emptyState 1 [trW1, trW2]).current_bar = some b →
        b.high - b.low < 1) ∧
      (∀ p tm c, (newBar p tm c).high - (newBar p tm c).low = 0) ∧
      (∀ s t, (closedOn s t 1).toList.length ≤ 1)) :=
  ⟨by norm_num, claim_C10 1 (by norm_num) [trW1, trW2]⟩

/-! ### Carry-over seeding (C3) -/

theorem closedOn_some_eq {s : AggState} {t : Trade} {θ : ℚ} {c : Bar}
    (h : closedOn s t θ = some c) :
    c = finBar (updBar (barFor s t) t) := by
  simp only [closedOn] at h
  split at h
  · injection h with h
    exact h.symm
  · exact absurd h (by simp)

/-- Claim C3: whenever a trade closes a bar (the history capacity being
positive, as it always is in the program), that same trade seeds the new open
bar with `open = high = low = close = price`, `volume = 0`, `cvd_delta = 0`,
`time` derived from the trade's timestamp, and `cvd_cum` equal to the
just-closed bar's finalized `cvd_cum`; the closing trade's amount and signed
delta are attributed to the closed bar, not to the new one. -/
theorem claim_C3 (s : AggState) (t : Trade) (θ : ℚ) (c : Bar)
    (hclose : closedOn s t θ = some c) (hcap : 0 < s.bars_maxlen) :
    (process_tick s t θ).current_bar = some (newBar t.price t.timestamp c.cvd_cum) ∧
    (newBar t.price t.timestamp c.cvd_cum).«open» = t.price ∧
    (newBar t.price t.timestamp c.cvd_cum).high = t.price ∧
    (newBar t.price t.timestamp c.cvd_cum).low = t.price ∧
    (newBar t.price t.timestamp c.cvd_cum).close = t.price ∧
    (newBar t.price t.timestamp c.cvd_cum).volume = 0 ∧
    (newBar t.price t.timestamp c.cvd_cum).cvd_delta = 0 ∧
    (newBar t.price t.timestamp c.cvd_cum).time = (t.timestamp : ℚ) / 1000 ∧
    (process_tick s t θ).bars.getLast? = some c ∧
    c.close = t.price ∧
    c.volume = (barFor s t).volume + t.amount ∧
    c.cvd_delta = (barFor s t).cvd_delta + signedDelta t := by
  have hfb := closedOn_some_eq hclose
  refine ⟨?_, rfl, rfl, rfl, rfl, rfl, rfl, rfl, ?_, ?_, ?_, ?_⟩
  · rw [process_tick_closed_eq hclose]
    simp [init_new_bar, prevCum_dequeAppend hcap]
  · rw [process_tick_closed_eq hclose]
    exact dequeAppend_getLast? hcap _ _
  · rw [hfb]
    rfl
  · rw [hfb]
    rfl
  · rw [hfb]
    rfl

/-- Concrete open bar for the C3 witness. -/
def barW : Bar :=
  { time := 0, «open» := 10, high := 10, low := 10, close := 10,
    volume := 1, cvd_delta := 1, cvd_cum := 0 }

/-- Concrete state with an open bar for the C3 witness. -/
def stW : AggState :=
  { bars := [], bars_maxlen := 200, current_bar := some barW, last_trade_id := none }

/-- Buy trade that moves the price by one full threshold unit. -/
def trW3 : Trade :=
  { id := 3, price := 11, amount := 2, side := Side.buy, timestamp := 2000 }

/-- The bar `trW3` closes from `stW` at threshold 1. -/
def cW : Bar :=
  { time := 0, «open» := 10, high := 11, low := 10, close := 11,
    volume := 3, cvd_delta := 3, cvd_cum := 3 }

/-- Witness for C3 at a concrete input. -/
theorem claim_C3_witness :
    closedOn stW trW3 1 = some cW ∧ 0 < stW.bars_maxlen ∧
    ((process_tick stW trW3 1).current_bar =
        some (newBar trW3.price trW3.timestamp cW.cvd_cum) ∧
      (newBar trW3.price trW3.timestamp cW.cvd_cum).«open» = trW3.price ∧
      (newBar trW3.price trW3.timestamp cW.cvd_cum).high = trW3.price ∧
      (newBar trW3.price trW3.timestamp cW.cvd_cum).low = trW3.price ∧
      (newBar trW3.price trW3.timestamp cW.cvd_cum).close = trW3.price ∧
      (newBar trW3.price trW3.timestamp cW.cvd_cum).volume = 0 ∧
      (newBar trW3.price trW3.timestamp cW.cvd_cum).cvd_delta = 0 ∧
      (newBar trW3.price trW3.timestamp cW.cvd_cum).time = (trW3.timestamp : ℚ) / 1000 ∧
      (process_tick stW trW3 1).bars.getLast? = some cW ∧
      cW.close = trW3.price ∧
      cW.volume = (barFor stW trW3).volume + trW3.amount ∧
      cW.cvd_delta = (barFor stW trW3).cvd_delta + signedDelta trW3) := by
  have h1 : closedOn stW trW3 1 = some cW := by
    norm_num [closedOn, barFor, stW, barW, trW3, updBar, finBar, signedDelta, cW,
      max_def, min_def]
  have h2 : 0 < stW.bars_maxlen := by norm_num [stW]
  exact ⟨h1, h2, claim_C3 stW trW3 1 cW h1 h2⟩

/-! ### History bound (C5) -/

theorem bars_shape (θ : ℚ) : ∀ (ts : List Trade) (s : AggState) (pre : List Bar),
    s.bars = pre.drop (pre.length - s.bars_maxlen) →
    (runTrades s θ ts).bars =
      (pre ++ allClosed s θ ts).drop
        ((pre ++ allClosed s θ ts).length - s.bars_maxlen) := by
  intro ts
  induction ts with
  | nil =>
    intro s pre h
    simpa [runTrades, allClosed] using h
  | cons t ts ih =>
    intro s pre h
    cases hc : closedOn s t θ with
    | none =>
      have hbars : (process_tick s t θ).bars = s.bars := by
        rw [process_tick_open_eq hc]
      have hcap := process_tick_maxlen s t θ
      have h' := ih (process_tick s t θ) pre (by rw [hbars, hcap]; exact h)
      simpa [runTrades, allClosed, hc, hcap] using h'
    | some fb =>
      have hbars : (process_tick s t θ).bars = dequeAppend s.bars_maxlen s.bars fb := by
        rw [process_tick_closed_eq hc]
        rfl
      have hcap := process_tick_maxlen s t θ
      have hpre' : (process_tick s t θ).bars =
          (pre ++ [fb]).drop
            ((pre ++ [fb]).length - (process_tick s t θ).bars_maxlen) := by
        rw [hbars, hcap, h, dequeAppend_drop]
        simp [List.length_append]
      have h' := ih (process_tick s t θ) (pre ++ [fb]) hpre'
      simpa [runTrades, allClosed, hc, hcap, List.append_assoc] using h'

/-- Claim C5: the finalized-bar history is a bounded FIFO: from the empty
aggregator (capacity 200), and from any reset state (capacity 100), the
retained history is exactly the most recent `capacity` finalized bars in
close order (the remainder of the ghost history after dropping the evicted
oldest bars), and its length is the number of finalized bars capped at the
capacity. -/
theorem claim_C5 (θ : ℚ) (ts : List Trade) (s : AggState) :
    (runTrades emptyState θ ts).bars =
      (allClosed emptyState θ ts).drop ((allClosed emptyState θ ts).length - 200) ∧
    (runTrades emptyState θ ts).bars.length = min (allClosed emptyState θ ts).length 200 ∧
    (runTrades (resetChart s) θ ts).bars =
      (allClosed (resetChart s) θ ts).drop ((allClosed (resetChart s) θ ts).length - 100) ∧
    (runTrades (resetChart s) θ ts).bars.length =
      min (allClosed (resetChart s) θ ts).length 100 := by
  have h1 : (runTrades emptyState θ ts).bars =
      (allClosed emptyState θ ts).drop ((allClosed emptyState θ ts).length - 200) := by
    simpa [emptyState] using bars_shape θ ts emptyState [] (by simp [emptyState])
  have h2 : (runTrades (resetChart s) θ ts).bars =
      (allClosed (resetChart s) θ ts).drop
        ((allClosed (resetChart s) θ ts).length - 100) := by
    simpa [resetChart] using bars_shape θ ts (resetChart s) [] (by simp [resetChart])
  refine ⟨h1, ?_, h2, ?_⟩
  · rw [h1, List.length_drop]
    omega
  · rw [h2, List.length_drop]
    omega

/-! ### Reset frame (C6) -/

/-- Claim C6: the reset operation empties the history (with a new capacity of
100) and clears the current bar, and leaves `last_trade_id` exactly as it was
— so the next fetch still deduplicates against pre-reset trade ids. -/
theorem claim_C6 (s : AggState) :
    (resetChart s).bars = [] ∧
    (resetChart s).bars_maxlen = 100 ∧
    (resetChart s).current_bar = none ∧
    (resetChart s).last_trade_id = s.last_trade_id ∧
    (∀ batch, dedupe batch (resetChart s).last_trade_id = dedupe batch s.last_trade_id) :=
  ⟨rfl, rfl, rfl, rfl, fun _ => rfl⟩

/-! ### Deduplication (C4) -/

/-- A trade whose exchange id is 0 — a falsy value under Python truthiness. -/
def trZ : Trade :=
  { id := 0, price := 5, amount := 1, side := Side.buy, timestamp := 0 }

/-- Counterexample to C4 as stated: with the cursor present and equal to 0,
`dedupe` returns the batch unchanged (the Python guard
`if st.session_state.last_trade_id:` treats 0 as absent), not the empty
subsequence of ids strictly greater than 0. -/
theorem claim_C4_cex :
    dedupe [trZ] (some 0) = [trZ] ∧
    List.filter (fun t => decide (0 < t.id)) [trZ] = [] ∧
    ([trZ] : List Trade) ≠ [] :=
  ⟨rfl, rfl, by simp⟩

/-- Claim C4, amended for the zero-cursor counterexample: if `lastId` is
absent — or Python-falsy, i.e. 0 — `dedupe` returns the batch unchanged; for
a nonzero `lastId` it returns exactly the subsequence of trades whose id is
strictly greater than `lastId`, preserving the original order (the output is
a sublist of the batch), and a batch containing only ids at most `lastId`
yields an empty result, not an error. -/
theorem claim_C4 (batch : List Trade) (n : Nat) (lid : Option Nat) :
    dedupe batch none = batch ∧
    dedupe batch (some 0) = batch ∧
    dedupe batch (some (n + 1)) = batch.filter (fun t => decide (n + 1 < t.id)) ∧
    (dedupe batch lid).Sublist batch ∧
    dedupe (batch.filter (fun t => decide (t.id ≤ n + 1))) (some (n + 1)) = [] := by
  refine ⟨rfl, rfl, by simp [dedupe], ?_, ?_⟩
  · cases lid with
    | none => exact List.Sublist.refl _
    | some m =>
      by_cases hm : m ≠ 0
      · simp only [dedupe, if_pos hm]
        exact List.filter_sublist _
      · simp only [dedupe, if_neg hm]
        exact List.Sublist.refl _
  · have hd : dedupe (batch.filter fun t => decide (t.id ≤ n + 1)) (some (n + 1)) =
        (batch.filter fun t => decide (t.id ≤ n + 1)).filter
          (fun t => decide (n + 1 < t.id)) := by
      simp [dedupe]
    rw [hd, List.filter_eq_nil_iff]
    intro a ha
    have h2 := (List.mem_filter.mp ha).2
    simp only [decide_eq_true_eq] at h2 ⊢
    omega

/-! ### What the consumer receives (C7) -/

theorem drop_getLast? {cap : Nat} (hcap : 0 < cap) (l : List Bar) :
    (l.drop (l.length - cap)).getLast? = l.getLast? := by
  induction l using List.reverseRecOn with
  | nil => simp
  | append_singleton l' a _ =>
    rw [List.drop_append_of_le_length (by simp; omega), List.getLast?_concat,
      List.getLast?_concat]

/-- Counterexample to C7 as stated: after one trade from the empty aggregator
an open (provisional) bar exists, yet the render step hands the consumer
nothing at all — no sequence ending in the provisional bar, no scalars —
because `app.py` renders only when `len(bars) > 0`, and then only the
finalized bars. -/
theorem claim_C7_cex :
    (runTrades emptyState 1 [trW1]).current_bar.isSome = true ∧
    renderData (runTrades emptyState 1 [trW1]) = none := by
  have hc : closedOn emptyState trW1 1 = none := by
    norm_num [closedOn, barFor, emptyState, updBar, newBar, prevCum, trW1, signedDelta]
  have hr : runTrades emptyState 1 [trW1] =
      { emptyState with current_bar := some (updBar (barFor emptyState trW1) trW1) } := by
    show process_tick emptyState trW1 1 = _
    exact process_tick_open_eq hc
  rw [hr]
  exact ⟨rfl, rfl⟩

/-- Claim C7, amended: each cycle the consumer receives data only when at
least one bar has been finalized, and then receives the bounded finalized-bar
history only — the open bar is not part of the rendered sequence — together
with the last finalized bar's close, the last finalized bar's cumulative CVD
(not the provisional value), and the finalized-bar count; with no finalized
bar it receives nothing (a waiting message is shown). -/
theorem claim_C7 (θ : ℚ) (ts : List Trade) :
    renderData (runTrades emptyState θ ts) =
      ((runTrades emptyState θ ts).bars.getLast?).map
        (fun b => ((runTrades emptyState θ ts).bars, b.close, b.cvd_cum,
          (runTrades emptyState θ ts).bars.length)) ∧
    (renderData (runTrades emptyState θ ts)).map (fun x => x.2.1) =
      ((allClosed emptyState θ ts).getLast?).map Bar.close ∧
    (renderData (runTrades emptyState θ ts)).map (fun x => x.2.2.1) =
      ((allClosed emptyState θ ts).getLast?).map Bar.cvd_cum := by
  have hbars : (runTrades emptyState θ ts).bars =
      (allClosed emptyState θ ts).drop ((allClosed emptyState θ ts).length - 200) := by
    simpa [emptyState] using bars_shape θ ts emptyState [] (by simp [emptyState])
  have hlast : (runTrades emptyState θ ts).bars.getLast? =
      (allClosed emptyState θ ts).getLast? := by
    rw [hbars]
    exact drop_getLast? (by norm_num) _
  cases h : (runTrades emptyState θ ts).bars.getLast? with
  | none =>
    have h' : (allClosed emptyState θ ts).getLast? = none := by rw [← hlast, h]
    refine ⟨?_, ?_, ?_⟩ <;> simp [renderData, h, h']
  | some b =>
    have h' : (allClosed emptyState θ ts).getLast? = some b := by rw [← hlast, h]
    refine ⟨?_, ?_, ?_⟩ <;> simp [renderData, h, h']

/-! ### Dedup cursor facts (C8, C9) -/

theorem dedupe_sublist (batch : List Trade) (lid : Option Nat) :
    (dedupe batch lid).Sublist batch := by
  cases lid with
  | none => exact List.Sublist.refl _
  | some m =>
    by_cases hm : m ≠ 0
    · simp only [dedupe, if_pos hm]
      exact List.filter_sublist _
    · simp only [dedupe, if_neg hm]
      exact List.Sublist.refl _

theorem ascIds_dedupe {batch : List Trade} (h : ascIds batch) (lid : Option Nat) :
    ascIds (dedupe batch lid) :=
  List.Pairwise.sublist (dedupe_sublist batch lid) h

theorem dedupe_pos_eq {batch : List Trade} {n : Nat} (hn : n ≠ 0) :
    dedupe batch (some n) = batch.filter (fun t => decide (n < t.id)) := by
  simp [dedupe, hn]

theorem dedupe_mem_gt {batch : List Trade} {n : Nat} {t : Trade}
    (hn : n ≠ 0) (h : t ∈ dedupe batch (some n)) : n < t.id := by
  rw [dedupe_pos_eq hn] at h
  simpa using (List.mem_filter.mp h).2

theorem asc_le_getLast? : ∀ {l : List Trade} {m : Trade},
    ascIds l → l.getLast? = some m → ∀ t ∈ l, t.id ≤ m.id := by
  intro l
  induction l with
  | nil => intro m _ hm; simp at hm
  | cons a l ih =>
    intro m hasc hm t ht
    cases l with
    | nil =>
      simp at hm ht
      subst hm
      subst ht
      exact le_refl _
    | cons b l' =>
      rw [List.getLast?_cons_cons] at hm
      rcases List.mem_cons.mp ht with rfl | ht'
      · have h1 := (List.pairwise_cons.mp hasc).1
        have hmem : m ∈ b :: l' := List.mem_of_mem_getLast? (Option.mem_def.mpr hm)
        exact le_of_lt (h1 m hmem)
      · exact ih (List.pairwise_cons.mp hasc).2 hm t ht'

theorem fetchStep_snd_le (lid : Option Nat) (batch : List Trade) :
    optLe lid (fetchStep lid batch).2 := by
  cases lid with
  | none => trivial
  | some m =>
    cases hg : (dedupe batch (some m)).getLast? with
    | none =>
      simp only [fetchStep, hg]
      exact le_refl m
    | some t =>
      simp only [fetchStep, hg]
      show m ≤ t.id
      by_cases hm : m = 0
      · subst hm
        exact Nat.zero_le _
      · exact le_of_lt
          (dedupe_mem_gt hm (List.mem_of_mem_getLast? (Option.mem_def.mpr hg)))

theorem optLe_trans {a b c : Option Nat} (h1 : optLe a b) (h2 : optLe b c) :
    optLe a c := by
  cases a with
  | none => trivial
  | some m =>
    cases b with
    | none => exact h1.elim
    | some m' =>
      cases c with
      | none => exact h2.elim
      | some m'' => exact le_trans (h1 : m ≤ m') (h2 : m' ≤ m'')

theorem runFetch_fst_le (lid : Option Nat) (bs : List (List Trade)) :
    optLe lid (runFetch lid bs).1 := by
  induction bs generalizing lid with
  | nil =>
    cases lid with
    | none => trivial
    | some m => exact le_refl m
  | cons b bs ih => exact optLe_trans (fetchStep_snd_le lid b) (ih (fetchStep lid b).2)

theorem runFetch_append (lid : Option Nat) (bs1 bs2 : List (List Trade)) :
    runFetch lid (bs1 ++ bs2) =
      ((runFetch (runFetch lid bs1).1 bs2).1,
        (runFetch lid bs1).2 ++ (runFetch (runFetch lid bs1).1 bs2).2) := by
  induction bs1 generalizing lid with
  | nil => simp [runFetch]
  | cons b bs ih =>
    show ((runFetch (fetchStep lid b).2 (bs ++ bs2)).1,
        (fetchStep lid b).1 ++ (runFetch (fetchStep lid b).2 (bs ++ bs2)).2) =
      ((runFetch (runFetch (fetchStep lid b).2 bs).1 bs2).1,
        ((fetchStep lid b).1 ++ (runFetch (fetchStep lid b).2 bs).2) ++
          (runFetch (runFetch (fetchStep lid b).2 bs).1 bs2).2)
    rw [ih]
    simp [List.append_assoc]

theorem fetchStep_max {lid : Option Nat} {consumed : List Trade} {batch : List Trade}
    (hasc : ascIds batch) (h : isMaxOf lid consumed) :
    isMaxOf (fetchStep lid batch).2 (consumed ++ (fetchStep lid batch).1) := by
  cases hg : (dedupe batch lid).getLast? with
  | none =>
    have hnil : dedupe batch lid = [] := List.getLast?_eq_none_iff.mp hg
    simp only [fetchStep, hg, hnil, List.append_nil]
    exact h
  | some t =>
    have htmem : t ∈ dedupe batch lid := List.mem_of_mem_getLast? (Option.mem_def.mpr hg)
    have hnt_le : ∀ x ∈ dedupe batch lid, x.id ≤ t.id :=
      asc_le_getLast? (ascIds_dedupe hasc lid) hg
    have hold : ∀ x ∈ consumed, x.id ≤ t.id := by
      intro x hx
      cases lid with
      | none =>
        have hcons : consumed = [] := h
        rw [hcons] at hx
        exact absurd hx (List.not_mem_nil x)
      | some m =>
        have hxm : x.id ≤ m := h.1 x hx
        by_cases hm : m = 0
        · subst hm
          omega
        · exact le_trans hxm (le_of_lt (dedupe_mem_gt hm htmem))
    simp only [fetchStep, hg]
    refine ⟨?_, ?_⟩
    · intro x hx
      rcases List.mem_append.mp hx with hx | hx
      · exact hold x hx
      · exact hnt_le x hx
    · exact List.mem_map.mpr ⟨t, List.mem_append.mpr (Or.inr htmem), rfl⟩

theorem runFetch_max : ∀ (bs : List (List Trade)) (lid : Option Nat)
    (consumed : List Trade), (∀ b ∈ bs, ascIds b) → isMaxOf lid consumed →
    isMaxOf (runFetch lid bs).1 (consumed ++ (runFetch lid bs).2) := by
  intro bs
  induction bs with
  | nil =>
    intro lid consumed _ h
    simpa [runFetch] using h
  | cons b bs ih =>
    intro lid consumed hasc h
    have h1 := fetchStep_max (hasc b (by simp)) h
    have h2 := ih (fetchStep lid b).2 (consumed ++ (fetchStep lid b).1)
      (fun x hx => hasc x (by simp [hx])) h1
    simpa [runFetch, List.append_assoc] using h2

/-- Claim C8: for id-ascending batches, each fetch cycle sets the cursor to
the id of the last returned trade when the dedup output is non-empty and
leaves it unchanged when the output is empty; consequently, starting from an
absent cursor, `last_trade_id` is always the maximum id among all trades
consumed so far (absent iff none were consumed) and is monotonically
non-decreasing as further cycles run. -/
theorem claim_C8 (batches : List (List Trade)) (hasc : ∀ b ∈ batches, ascIds b) :
    isMaxOf (runFetch none batches).1 (runFetch none batches).2 ∧
    (∀ lid batch t, (dedupe batch lid).getLast? = some t →
      (fetchStep lid batch).2 = some t.id) ∧
    (∀ lid batch, dedupe batch lid = [] → (fetchStep lid batch).2 = lid) ∧
    (∀ more, optLe (runFetch none batches).1 (runFetch none (batches ++ more)).1) := by
  refine ⟨?_, ?_, ?_, ?_⟩
  · simpa using runFetch_max batches none [] hasc rfl
  · intro lid batch t hg
    simp [fetchStep, hg]
  · intro lid batch h
    simp [fetchStep, h]
  · intro more
    rw [runFetch_append]
    exact runFetch_fst_le (runFetch none batches).1 more

/-- Concrete ascending two-cycle batch list for the C8 witness. -/
def batchesW : List (List Trade) := [[trW1, trW2], [trW3]]

/-- Witness for C8 at a concrete input. -/
theorem claim_C8_witness :
    (∀ b ∈ batchesW, ascIds b) ∧
    (isMaxOf (runFetch none batchesW).1 (runFetch none batchesW).2 ∧
      (∀ lid batch t, (dedupe batch lid).getLast? = some t →
        (fetchStep lid batch).2 = some t.id) ∧
      (∀ lid batch, dedupe batch lid = [] → (fetchStep lid batch).2 = lid) ∧
      (∀ more, optLe (runFetch none batchesW).1
        (runFetch none (batchesW ++ more)).1)) := by
  have h : ∀ b ∈ batchesW, ascIds b := by
    norm_num [batchesW, ascIds, List.pairwise_cons, trW1, trW2, trW3]
  exact ⟨h, claim_C8 batchesW h⟩

/-- Counterexample to C9 as stated: a batch holding one trade with id 0 is
double-processed — the first fetch (absent cursor) returns it and sets the
cursor to 0; since 0 is Python-falsy, the second fetch returns the very same
batch again, so the trade appears in both outputs instead of exactly one. -/
theorem claim_C9_cex :
    (fetchStep none [trZ]).1 = [trZ] ∧
    (fetchStep (fetchStep none [trZ]).2 [trZ]).1 = [trZ] ∧
    trZ ∈ (fetchStep none [trZ]).1 ∧
    trZ ∈ (fetchStep (fetchStep none [trZ]).2 [trZ]).1 :=
  ⟨rfl, rfl, List.mem_singleton_self trZ, List.mem_singleton_self trZ⟩

/-- Claim C9, amended for the zero-id counterexample: for an ascending batch
of positive ids, when a first dedup pass returns a non-empty output and the
cursor is updated to that output's last id, a second pass over the same batch
returns the empty sequence — so the two outputs together contain every
processed trade exactly once: no overlap and no double-processing. -/
theorem claim_C9 (batch : List Trade) (lid : Option Nat)
    (hasc : ascIds batch) (hpos : ∀ t ∈ batch, 0 < t.id)
    (hne : dedupe batch lid ≠ []) :
    dedupe batch (some ((dedupe batch lid).getLast hne).id) = [] ∧
    dedupe batch lid ++ dedupe batch (some ((dedupe batch lid).getLast hne).id) =
      dedupe batch lid ∧
    (∀ t ∈ batch,
      ¬(t ∈ dedupe batch lid ∧
        t ∈ dedupe batch (some ((dedupe batch lid).getLast hne).id))) := by
  have hgl : (dedupe batch lid).getLast? = some ((dedupe batch lid).getLast hne) :=
    List.getLast?_eq_getLast_of_ne_nil hne
  have hmemo1 : (dedupe batch lid).getLast hne ∈ dedupe batch lid :=
    List.getLast_mem hne
  have hmemb : (dedupe batch lid).getLast hne ∈ batch :=
    List.Sublist.mem hmemo1 (dedupe_sublist batch lid)
  have hMpos : 0 < ((dedupe batch lid).getLast hne).id := hpos _ hmemb
  have hle : ∀ t ∈ batch, t.id ≤ ((dedupe batch lid).getLast hne).id := by
    intro t ht
    by_contra hgt
    push_neg at hgt
    have htin : t ∈ dedupe batch lid := by
      cases lid with
      | none => simpa [dedupe] using ht
      | some m =>
        by_cases hm : m = 0
        · simpa [dedupe, hm] using ht
        · have hMm : m < ((dedupe batch (some m)).getLast hne).id :=
            dedupe_mem_gt hm hmemo1
          rw [dedupe_pos_eq hm]
          refine List.mem_filter.mpr ⟨ht, ?_⟩
          simp only [decide_eq_true_eq]
          omega
    have := asc_le_getLast? (ascIds_dedupe hasc lid) hgl t htin
    omega
  have h1 : dedupe batch (some ((dedupe batch lid).getLast hne).id) = [] := by
    have hMne : ((dedupe batch lid).getLast hne).id ≠ 0 := by omega
    rw [dedupe_pos_eq hMne, List.filter_eq_nil_iff]
    intro a ha
    simp only [decide_eq_true_eq, not_lt]
    exact hle a ha
  refine ⟨h1, by rw [h1, List.append_nil], ?_⟩
  intro t ht hcon
  rw [h1] at hcon
  exact absurd hcon.2 (List.not_mem_nil t)

/-- Witness for C9 at a concrete input: an ascending positive-id batch and an
absent initial cursor. -/
theorem claim_C9_witness :
    ascIds [trW1, trW2] ∧ (∀ t ∈ [trW1, trW2], 0 < t.id) ∧
    dedupe [trW1, trW2] none ≠ [] ∧
    (dedupe [trW1, trW2]
        (some (((dedupe [trW1, trW2] none).getLast (by simp [dedupe])).id)) = [] ∧
      dedupe [trW1, trW2] none ++ dedupe [trW1, trW2]
        (some (((dedupe [trW1, trW2] none).getLast (by simp [dedupe])).id)) =
        dedupe [trW1, trW2] none ∧
      (∀ t ∈ [trW1, trW2],
        ¬(t ∈ dedupe [trW1, trW2] none ∧
          t ∈ dedupe [trW1, trW2]
            (some (((dedupe [trW1, trW2] none).getLast (by simp [dedupe])).id))))) := by
  have hasc : ascIds [trW1, trW2] := by
    norm_num [ascIds, List.pairwise_cons, trW1, trW2]
  have hpos : ∀ t ∈ [trW1, trW2], 0 < t.id := by
    norm_num [trW1, trW2]
  have hne : dedupe [trW1, trW2] none ≠ [] := by simp [dedupe]
  exact ⟨hasc, hpos, hne, claim_C9 [trW1, trW2] none hasc hpos hne⟩

end App
